import Mathlib

/-!
Verification development for the `rubyext` native-extension build engine.

The Go sources are embedded shallowly: pure functions become Lean functions,
the filesystem and the external-tool environment become explicit parameters,
and the sequential batch runner becomes a recursive function that additionally
records a trace of adapter resolutions and build invocations.  Machine paths
are modelled for a Unix platform (`/` is the only path separator, `ToSlash`
and `FromSlash` are the identity), matching the platform the package's own
tests run on.
-/

namespace RubyExt

/-! ### Character-level helpers and a model of Go `path/filepath` -/

def isSep (c : Char) : Bool := c = '/'

def isDot (c : Char) : Bool := c = '.'

/-- Split a character list at every occurrence of `sep`; the separators are
dropped and empty chunks are kept, as in Go's `strings.Split`. -/
def splitChAux (sep : Char) : List Char → List Char → List (List Char)
  | acc, [] => [acc.reverse]
  | acc, c :: rest =>
    if c = sep then acc.reverse :: splitChAux sep [] rest
    else splitChAux sep (c :: acc) rest

/-- The `/`-separated segments of a path, empties included. -/
def segsOf (l : List Char) : List (List Char) := splitChAux '/' [] l

/-- Join segments with `/` (inverse of `segsOf` on separator-free segments). -/
def joinSegs : List (List Char) → List Char
  | [] => []
  | [x] => x
  | x :: y :: rest => x ++ '/' :: joinSegs (y :: rest)

/-- The `..` path segment. -/
def ddSeg : List Char := ['.', '.']

/-- One step of Go `filepath.Clean` over a segment stack (most recent first).
Empty and `.` segments are dropped; `..` pops a normal segment, is kept on an
empty stack for relative paths, and is dropped at the root of rooted paths. -/
def cleanStep (rooted : Bool) (stack : List (List Char)) (seg : List Char) :
    List (List Char) :=
  if seg = [] ∨ seg = ['.'] then stack
  else if seg = ddSeg then
    match stack with
    | [] => if rooted then [] else [ddSeg]
    | top :: tl => if top = ddSeg then seg :: top :: tl else tl
  else seg :: stack

/-- Core of Go `filepath.Clean`: process all segments in order. -/
def cleanAux (rooted : Bool) (stack : List (List Char)) (input : List (List Char)) :
    List (List Char) :=
  input.foldl (cleanStep rooted) stack

def isRooted (l : List Char) : Bool :=
  match l with
  | c :: _ => isSep c
  | [] => false

/-- Go `filepath.Clean` for a Unix separator. -/
def pathClean (s : String) : String :=
  let rooted := isRooted s.data
  let out := (cleanAux rooted [] (segsOf s.data)).reverse
  if out = [] then (if rooted then "/" else ".")
  else if rooted then String.mk ('/' :: joinSegs out) else String.mk (joinSegs out)

/-- Go `filepath.Base` for a Unix separator. -/
def pathBase (s : String) : String :=
  if s = "" then "."
  else
    let r := s.data.reverse.dropWhile isSep
    if r = [] then "/"
    else String.mk ((r.takeWhile (fun c => !(isSep c))).reverse)

/-- Go `filepath.Ext`: the suffix of the final element starting at its final
dot, or `""` when the final element has no dot. -/
def pathExt (s : String) : String :=
  let revSeg := s.data.reverse.takeWhile (fun c => !(isSep c))
  let a := revSeg.takeWhile (fun c => !(isDot c))
  if a.length = revSeg.length then "" else String.mk ('.' :: a.reverse)

/-- Go `filepath.Dir`: everything up to and including the final separator,
cleaned; `"."` when there is no separator. -/
def pathDir (s : String) : String :=
  pathClean (String.mk (s.data.reverse.dropWhile (fun c => !(isSep c))).reverse)

/-- Go `filepath.Join` on two elements: empty elements are skipped and the
result is cleaned; the join of two empty strings is empty. -/
def pathJoin (a b : String) : String :=
  if a = "" then (if b = "" then "" else pathClean b) else pathClean (a ++ "/" ++ b)

def stripRoot (l : List Char) : List Char :=
  match l with
  | '/' :: t => t
  | l => l

def relSegs (l : List Char) : List (List Char) := if l = [] then [] else segsOf l

def commonPrefixLen : List (List Char) → List (List Char) → Nat
  | a :: as, b :: bs => if a = b then commonPrefixLen as bs + 1 else 0
  | _, _ => 0

/-- Go `filepath.Rel` for a Unix separator, segment-based: clean both paths,
strip the longest common segment prefix, and climb out of the remaining base
segments with `..`; `none` models the error return. -/
def pathRel (basepath targpath : String) : Option String :=
  let base := pathClean basepath
  let targ := pathClean targpath
  if targ = base then some "." else
  let base := if base = "." then "" else base
  if (isRooted base.data ≠ isRooted targ.data) then none else
  let bsegs := relSegs (stripRoot base.data)
  let tsegs := relSegs (stripRoot targ.data)
  let k := commonPrefixLen bsegs tsegs
  let brem := bsegs.drop k
  let trem := tsegs.drop k
  if brem.head? = some ddSeg then none
  else if brem = [] then some (String.mk (joinSegs trem))
  else some (String.mk (joinSegs (List.replicate brem.length ddSeg ++ trem)))

/-! ### Models of the Go `strings` / `strconv` functions used by the repo -/

def hasPrefixS (s t : String) : Bool := decide (t.data <+: s.data)

def hasSuffixS (s t : String) : Bool := decide (t.data <:+ s.data)

def trimPrefixS (s t : String) : String :=
  if hasPrefixS s t then String.mk (s.data.drop t.data.length) else s

def trimSuffixS (s t : String) : String :=
  if hasSuffixS s t then String.mk (s.data.take (s.data.length - t.data.length)) else s

/-- Go `strings.Trim` with an explicit cutset. -/
def trimAnyS (s : String) (cutset : List Char) : String :=
  String.mk (((s.data.dropWhile (fun c => cutset.contains c)).reverse.dropWhile
      (fun c => cutset.contains c)).reverse)

/-- ASCII lower-casing (the native-library suffix set is ASCII). -/
def lowerChar (c : Char) : Char :=
  if 'A' ≤ c ∧ c ≤ 'Z' then Char.ofNat (c.toNat + 32) else c

def strToLower (s : String) : String := String.mk (s.data.map lowerChar)

/-- Go `strings.Split` with a one-character separator. -/
def strSplit (s : String) (sep : Char) : List String :=
  (splitChAux sep [] s.data).map String.mk

def isDigit (c : Char) : Bool := '0' ≤ c ∧ c ≤ '9'

def digitsToNat (l : List Char) : Nat :=
  l.foldl (fun acc d => acc * 10 + (d.toNat - '0'.toNat)) 0

/-- Go `strconv.Atoi` on a 64-bit platform: optional sign, decimal digits,
error (`none`) on an empty or malformed string or on int64 overflow. -/
def goAtoi (s : String) : Option Int :=
  match s.data with
  | [] => none
  | c :: rest =>
    let p := if c = '-' then (true, rest) else if c = '+' then (false, rest) else (false, c :: rest)
    if p.2 = [] then none
    else if p.2.all isDigit then
      let v : Int := if p.1 then -(digitsToNat p.2 : Int) else (digitsToNat p.2 : Int)
      if v < -(2 ^ 63) ∨ 2 ^ 63 - 1 < v then none else some v
    else none

/-! ### Tool requirement checker (`toolcheck.go`)

The environment's `PATH` lookup (`exec.LookPath`) is modelled as a predicate
`env : String → Bool` telling whether a tool binary is reachable. -/

structure ToolRequirement where
  name : String
  alternatives : List String
  optional : Bool
  purpose : String
  deriving DecidableEq, Repr

/-- `CheckToolAvailable`: `none` if the tool is on the `PATH`, otherwise the
error message naming the tool. -/
def checkToolAvailable (env : String → Bool) (tool : String) : Option String :=
  if env tool then none else some (tool ++ " not found in PATH")

/-- One requirement's availability: the primary name first, then each
alternative in listed order. -/
def reqFound (env : String → Bool) (req : ToolRequirement) : Bool :=
  let found := (checkToolAvailable env req.name).isNone
  if !found ∧ req.alternatives ≠ [] then
    req.alternatives.any (fun alt => (checkToolAvailable env alt).isNone)
  else found

/-- The label recorded for a missing required tool (`name (purpose)`). -/
def missingLabel (req : ToolRequirement) : String :=
  if req.purpose ≠ "" then req.name ++ " (" ++ req.purpose ++ ")" else req.name

/-- The `missingTools` accumulator of `CheckRequiredTools`, in input order. -/
def missingOf (env : String → Bool) : List ToolRequirement → List String
  | [] => []
  | req :: rest =>
    if reqFound env req = false ∧ req.optional = false then
      missingLabel req :: missingOf env rest
    else missingOf env rest

def joinComma : List String → String
  | [] => ""
  | [x] => x
  | x :: y :: rest => x ++ ", " ++ joinComma (y :: rest)

/-- `CheckRequiredTools`: `none` when every required tool (or an alternative)
is available, a single-tool message for exactly one missing required tool, and
one aggregated message for several. -/
def checkRequiredTools (env : String → Bool) (requirements : List ToolRequirement) :
    Option String :=
  match missingOf env requirements with
  | [] => none
  | [m] => some (m ++ " not found in PATH")
  | ms => some ("missing required tools: " ++ joinComma ms)

/-! ### Data model (`types.go`), restricted to the fields the install resolver
and the batch runner read. -/

structure BuildConfig where
  gemDir : String
  destPath : String
  libDir : String
  rubyVersion : String
  stopOnFailure : Bool
  deriving Repr

/-- The filesystem facade consumed by the install resolver: regular-file
checks (`os.Stat`), descriptor reads (`os.ReadFile`, `none` on error) and the
success of a `copyFile` call. -/
structure FSModel where
  isRegularFile : String → Bool
  readFile : String → Option String
  copyOk : String → String → Bool

/-! ### Install resolver (`common.go`) -/

def nativeLibraryExtensions : List String := [".so", ".bundle", ".dll", ".dylib"]

def isNativeLibrary (path : String) : Bool :=
  decide (strToLower (pathExt path) ∈ nativeLibraryExtensions)

/-- `parseRubyVersion`: split on dots and parse the first two components. -/
def parseRubyVersion (version : String) : Option (Int × Int) :=
  match strSplit version '.' with
  | p0 :: p1 :: _ =>
    match goAtoi p0, goAtoi p1 with
    | some major, some minor => some (major, minor)
    | _, _ => none
  | _ => none

/-- `rubyVersionDirectory`: the `major.minor` directory name, used only when
the version is at or above the 3.4 threshold. -/
def rubyVersionDirectory (version : String) : String × Bool :=
  match parseRubyVersion version with
  | none => ("", false)
  | some (major, minor) =>
    if major > 3 ∨ (major = 3 ∧ minor ≥ 4) then (toString major ++ "." ++ toString minor, true)
    else ("", false)

/-- `uniqueStrings`: drop empties and duplicates, preserving first
occurrences. -/
def uniqueAux : List String → List String → List String
  | _, [] => []
  | seen, v :: rest =>
    if v = "" ∨ v ∈ seen then uniqueAux seen rest
    else v :: uniqueAux (v :: seen) rest

def uniqueStrings (values : List String) : List String := uniqueAux [] values

def isAbs (dir : String) : Bool := isRooted dir.data

/-- The `add` closure of `gatherBaseDirectories`. -/
def addBaseDir (config : BuildConfig) (dirs : List String) (dir : String) : List String :=
  if dir = "" then dirs
  else if ¬ isAbs dir ∧ config.gemDir ≠ "" then
    dirs ++ [pathClean (pathJoin config.gemDir dir)]
  else dirs ++ [pathClean dir]

/-- `gatherBaseDirectories`: the destination override, the library-directory
override, or the conventional `lib` under the gem root. -/
def gatherBaseDirectories (config : BuildConfig) : List String :=
  let dirs := addBaseDir config [] config.destPath
  let dirs := addBaseDir config dirs config.libDir
  let dirs :=
    if dirs = [] ∧ config.gemDir ≠ "" then addBaseDir config dirs (pathJoin config.gemDir "lib")
    else dirs
  uniqueStrings dirs

/-- `installTargets`: primary and additional destinations; at or above the
version threshold every base gains a version-qualified sibling which becomes
primary for the first base, with the unversioned base kept as an additional
compatibility destination. -/
def installTargets (config : BuildConfig) : String × List String :=
  match gatherBaseDirectories config with
  | [] => ("", [])
  | b0 :: rest =>
    let vd := rubyVersionDirectory config.rubyVersion
    let primary := if vd.2 then pathJoin b0 vd.1 else b0
    let additional :=
      (if vd.2 then [b0] else []) ++
      (rest.map (fun b => if vd.2 then [pathJoin b vd.1, b] else [b])).flatten
    (primary, uniqueStrings additional)

/-! The best-effort `create_makefile` scan of `moduleFromCreateMakefile`.
The two Go regular expressions

  `create_makefile\s*\(\s*['"]([^'"]+)['"]`  and  `create_makefile\s+['"]([^'"]+)['"]`

are implemented as deterministic leftmost scanners: `\s` is `[\t\n\f\r ]` and
the capture is a maximal nonempty run of non-quote characters followed by a
quote. -/

def isWS (c : Char) : Bool := c = '\t' ∨ c = '\n' ∨ c = Char.ofNat 12 ∨ c = '\r' ∨ c = ' '

def isQuoteCh (c : Char) : Bool := c = Char.ofNat 39 ∨ c = '"'

/-- Try the capture part `['"]([^'"]+)['"]` at the current position. -/
def matchQuoted (l : List Char) : Option (List Char) :=
  match l with
  | q :: rest =>
    if isQuoteCh q then
      let cap := rest.takeWhile (fun c => !(isQuoteCh c))
      let rest2 := rest.dropWhile (fun c => !(isQuoteCh c))
      if cap ≠ [] ∧ rest2 ≠ [] then some cap else none
    else none
  | [] => none

def cmLit : List Char := "create_makefile".data

/-- Try pattern 1, `create_makefile\s*\(\s*['"]([^'"]+)['"]`, at the current
position. -/
def matchCM1 (l : List Char) : Option (List Char) :=
  if cmLit <+: l then
    let r1 := (l.drop cmLit.length).dropWhile isWS
    match r1 with
    | '(' :: r2 => matchQuoted (r2.dropWhile isWS)
    | _ => none
  else none

/-- Try pattern 2, `create_makefile\s+['"]([^'"]+)['"]`, at the current
position. -/
def matchCM2 (l : List Char) : Option (List Char) :=
  if cmLit <+: l then
    let r1 := l.drop cmLit.length
    match r1 with
    | c :: _ =>
      if isWS c then matchQuoted (r1.dropWhile isWS) else none
    | [] => none
  else none

/-- Leftmost match of a position matcher over the whole text. -/
def scanFor (m : List Char → Option (List Char)) : List Char → Option (List Char)
  | [] => none
  | l@(_ :: rest) =>
    match m l with
    | some cap => some cap
    | none => scanFor m rest

/-- `moduleFromCreateMakefile`: only for `extconf.rb` descriptors, read the
descriptor and return the first capture of pattern 1, else of pattern 2, else
`""`. -/
def moduleFromCreateMakefile (fs : FSModel) (gemDir extensionFile : String) : String :=
  if ¬ hasSuffixS extensionFile "extconf.rb" then ""
  else
    match fs.readFile (pathJoin gemDir extensionFile) with
    | none => ""
    | some content =>
      match scanFor matchCM1 content.data with
      | some cap => String.mk cap
      | none =>
        match scanFor matchCM2 content.data with
        | some cap => String.mk cap
        | none => ""

/-- `safeRelativePath`: clean the path; a result of `.` or one starting with
`../` is replaced by the base name of the original path. -/
def safeRelativePath (path : String) : String :=
  let clean := pathClean path
  if clean = "." ∨ hasPrefixS clean "../" then pathBase path else clean

/-- The `if suffix != "" && !strings.HasSuffix(path, suffix) { path += suffix }`
step shared by every branch of `determineInstallRelativePath`. -/
def ensureSuffix (path suffix : String) : String :=
  if suffix ≠ "" ∧ hasSuffixS path suffix = false then path ++ suffix else path

/-- `determineInstallRelativePath`: the declared module name when present,
else a path derived from the descriptor's directory layout, with the
artifact's suffix appended when missing and the result sanitized.
(`filepath.FromSlash` is the identity on Unix.) -/
def determineInstallRelativePath (fs : FSModel) (gemDir extensionFile builtRel : String) :
    String :=
  let suffix := pathExt builtRel
  let baseName := trimSuffixS (pathBase builtRel) suffix
  let module := moduleFromCreateMakefile fs gemDir extensionFile
  if module ≠ "" then
    safeRelativePath (ensureSuffix module suffix)
  else if hasSuffixS extensionFile "extconf.rb" then
    let relPath := trimPrefixS extensionFile "ext/"
    let relPath := trimSuffixS relPath "/extconf.rb"
    let relPath := trimSuffixS relPath (pathExt relPath)
    let relPath := trimAnyS relPath ['/', '\\']
    let relPath :=
      if relPath ≠ "" ∧ hasSuffixS relPath baseName = false then pathJoin relPath baseName
      else relPath
    let relPath := if relPath = "" then baseName else relPath
    safeRelativePath (ensureSuffix relPath suffix)
  else
    let relDir := trimPrefixS (pathDir extensionFile) "ext/"
    let relDir :=
      if relDir = "" then baseName
      else if hasSuffixS relDir baseName = false then pathJoin relDir baseName
      else relDir
    safeRelativePath (ensureSuffix relDir suffix)

/-- `makeGemRelative`: build outputs made relative to the gem root without
copying (`filepath.ToSlash` is the identity on Unix). -/
def makeGemRelative (gemDir extensionFile : String) (built : List String) : List String :=
  let baseDir := pathDir extensionFile
  built.map (fun rel =>
    let full := pathJoin baseDir rel
    if gemDir ≠ "" then
      match pathRel gemDir (pathJoin gemDir full) with
      | some cleaned => cleaned
      | none => full
    else full)

/-- The gem-root-relative path recorded for an artifact installed at the
primary destination. -/
def installedEntryOf (gemDir primary relDest : String) : String :=
  match pathRel gemDir (pathJoin primary relDest) with
  | some relPath => relPath
  | none => pathJoin primary relDest

/-- Copies of one artifact to each additional destination; `none` models the
first failing `copyFile` aborting the installation. -/
def copyExtra (fs : FSModel) (srcPath relDest : String) :
    List String → Option (List (String × String))
  | [] => some []
  | dest :: rest =>
    let target := pathJoin dest relDest
    if fs.copyOk srcPath target then
      match copyExtra fs srcPath relDest rest with
      | some copies => some ((srcPath, target) :: copies)
      | none => none
    else none

/-- The destination-relative path of one artifact: the resolver's result, or
the artifact's base name when the resolver returned an empty path. -/
def resolvedRelDest (fs : FSModel) (gemDir extensionFile rel : String) : String :=
  let relDest := determineInstallRelativePath fs gemDir extensionFile rel
  if relDest = "" then pathBase rel else relDest

/-- The per-artifact loop of `finalizeNativeExtensions`: skip non-native and
non-regular entries, copy each native artifact to the primary and every
additional destination, and record the primary-relative installed path. -/
def installLoop (fs : FSModel) (gemDir extensionFile extensionDir primaryDest : String)
    (extraDests : List String) : List String → Option (List String × List (String × String))
  | [] => some ([], [])
  | rel :: rest =>
    if ¬ isNativeLibrary rel then
      installLoop fs gemDir extensionFile extensionDir primaryDest extraDests rest
    else
      let srcPath := pathJoin extensionDir rel
      if ¬ fs.isRegularFile srcPath then
        installLoop fs gemDir extensionFile extensionDir primaryDest extraDests rest
      else
        let relDest := resolvedRelDest fs gemDir extensionFile rel
        let destPrimary := pathJoin primaryDest relDest
        if fs.copyOk srcPath destPrimary then
          match copyExtra fs srcPath relDest extraDests with
          | none => none
          | some extraCopies =>
            match installLoop fs gemDir extensionFile extensionDir primaryDest extraDests rest with
            | none => none
            | some (installed, copies) =>
              some (installedEntryOf gemDir primaryDest relDest :: installed,
                (srcPath, destPrimary) :: extraCopies ++ copies)
        else none

/-- `finalizeNativeExtensions`: returns the installed gem-root-relative paths
together with the list of performed copies (source, destination), or `none`
when a copy fails. -/
def finalizeNativeExtensions (fs : FSModel) (config : BuildConfig)
    (extensionFile extensionDir : String) (built : List String) :
    Option (List String × List (String × String)) :=
  if built = [] then some ([], [])
  else if ¬ built.any isNativeLibrary then
    some (makeGemRelative config.gemDir extensionFile built, [])
  else
    let t := installTargets config
    if t.1 = "" then some (makeGemRelative config.gemDir extensionFile built, [])
    else installLoop fs config.gemDir extensionFile extensionDir t.1 t.2 built

/-! ### Adapter registry and batch runner (`factory.go`)

Builders are modelled by their name, their `CanBuild` predicate and their
`Build` behaviour.  A `Build` call returns the optional `*BuildResult` and the
optional error of the Go signature; the external toolchain invocation behind
it is out of the specified core, so scenario builders supply it directly.
The batch runner additionally records a trace of adapter resolutions and
build invocations, which the Go code performs as calls rather than data. -/

inductive ErrM where
  | canceled
  | noBuilderFound (filename : String)
  | custom (n : Nat)
  deriving DecidableEq, Repr

structure BuildResultM where
  success : Bool
  output : List String
  extensions : List String
  error : Option ErrM
  deriving DecidableEq, Repr

structure BuilderM where
  name : String
  canBuild : String → Bool
  build : BuildConfig → String → Option BuildResultM × Option ErrM

inductive EvM where
  | resolve (target : String)
  | build (builderName : String) (target : String)
  deriving DecidableEq, Repr

/-- `BuilderFor`: match only the final path segment against each registered
builder's predicate in registration order. -/
def builderFor (builders : List BuilderM) (extensionFile : String) :
    Except ErrM BuilderM :=
  let filename := pathBase extensionFile
  match builders.find? (fun b => b.canBuild filename) with
  | some b => Except.ok b
  | none => Except.error (ErrM.noBuilderFound filename)

/-- A cancellation signal: the error observed by `ctx.Err()` at the check
preceding the target with the given index (`none` while not cancelled). -/
def CtxM : Type := Nat → Option ErrM

/-- The per-target loop of `BuildAllExtensions`.  `i` is the index of the next
target, `firstError` the first error collected so far.  The result is the
remaining result records, the final first error, and the trace of resolution
and build events; `none` models the nil-result/nil-error builder panic. -/
def runBatchAux (builders : List BuilderM) (config : BuildConfig) (ctx : CtxM) :
    Nat → Option ErrM → List String → Option (List BuildResultM × Option ErrM × List EvM)
  | _, firstError, [] => some ([], firstError, [])
  | i, firstError, extension :: rest =>
    match ctx i with
    | some ctxErr =>
      some ([{ success := false, output := [], extensions := [], error := some ctxErr }],
        (if firstError = none then some ctxErr else firstError), [])
    | none =>
      match builderFor builders extension with
      | Except.error err =>
        let firstError := if firstError = none then some err else firstError
        let res : BuildResultM := { success := false, output := [], extensions := [], error := some err }
        if config.stopOnFailure then some ([res], firstError, [EvM.resolve extension])
        else
          match runBatchAux builders config ctx (i + 1) firstError rest with
          | some (results, fe, evs) => some (res :: results, fe, EvM.resolve extension :: evs)
          | none => none
      | Except.ok builder =>
        let out := builder.build config extension
        match out.1, out.2 with
        | none, none => none
        | resOpt, errOpt =>
          let firstError := if errOpt ≠ none ∧ firstError = none then errOpt else firstError
          let res := match resOpt with
            | some r => r
            | none => { success := false, output := [], extensions := [], error := errOpt }
          let evs0 := [EvM.resolve extension, EvM.build builder.name extension]
          if res.success = false ∧ config.stopOnFailure then some ([res], firstError, evs0)
          else
            match runBatchAux builders config ctx (i + 1) firstError rest with
            | some (results, fe, evs) => some (res :: results, fe, evs0 ++ evs)
            | none => none

/-- `BuildAllExtensions`: an empty batch yields no results and no error;
otherwise run the per-target loop from index 0. -/
def buildAllExtensions (builders : List BuilderM) (config : BuildConfig) (ctx : CtxM)
    (extensions : List String) : Option (List BuildResultM × Option ErrM × List EvM) :=
  if extensions = [] then some ([], none, [])
  else runBatchAux builders config ctx 0 none extensions

/-! ### The registered builders (`extconf_builder.go`, `cmake_builder.go`,
the Cargo builder, and `factory.go`).

The `CanBuild` predicates of the builders present in the sources use
`MatchesPattern` with suffix-anchored literal patterns (`extconf\.rb$`,
`CMakeLists\.txt$`, `Cargo\.toml$`), which hold exactly of strings ending in
the literal.  The `Build` methods drive external toolchains and are outside
the specified core; the registry claims below use only names and predicates,
so the build field is left inert. -/

def externalBuild : BuildConfig → String → Option BuildResultM × Option ErrM :=
  fun _ _ => (none, none)

def extConfBuilder : BuilderM where
  name := "ExtConf"
  canBuild := fun f => hasSuffixS f "extconf.rb"
  build := externalBuild

/-- Modelled from the spec: the configure-script adapter's sources are not in
the repository snapshot; its predicate recognizes the `configure` and
`configure.sh` descriptor filenames. -/
def configureBuilder : BuilderM where
  name := "Configure"
  canBuild := fun f => f = "configure" ∨ f = "configure.sh"
  build := externalBuild

/-- Modelled from the spec: the task-runner (Rake) adapter's sources are not
in the repository snapshot; its predicate recognizes the `Rakefile` and
`mkrf_conf.rb` descriptor filenames. -/
def rakeBuilder : BuilderM where
  name := "Rake"
  canBuild := fun f => f = "Rakefile" ∨ f = "mkrf_conf.rb"
  build := externalBuild

def cmakeBuilder : BuilderM where
  name := "CMake"
  canBuild := fun f => hasSuffixS f "CMakeLists.txt"
  build := externalBuild

def cargoBuilder : BuilderM where
  name := "Cargo"
  canBuild := fun f => hasSuffixS f "Cargo.toml"
  build := externalBuild

/-- `NewBuilderFactory`: the default registry, in registration order. -/
def newBuilderFactory : List BuilderM :=
  [extConfBuilder, configureBuilder, rakeBuilder, cmakeBuilder, cargoBuilder]

/-! ### Spec-level definitions used by the theorems -/

/-- The final `/`-separated chunk of a character list (what survives as the
last path segment). -/
def lastChunk (l : List Char) : List Char :=
  (l.reverse.takeWhile (fun c => !(isSep c))).reverse

/-- Invariant of the `cleanAux` stack for relative paths: all `..` segments
sit at the bottom of the stack. -/
def stackShape (st : List (List Char)) : Prop :=
  ∃ pre n, st = pre ++ List.replicate n ddSeg ∧ ddSeg ∉ pre

/-- A path contains no parent-directory (`..`) segment. -/
def noParentSegments (s : String) : Bool := decide (ddSeg ∉ segsOf s.data)

/-! ### Concrete scenarios referenced by witnesses and counterexamples -/

/-- A filesystem with no readable files, every path a regular file, and
always-succeeding copies. -/
def fsPlain : FSModel where
  isRegularFile := fun _ => true
  readFile := fun _ => none
  copyOk := fun _ _ => true

/-- The `install_test.go` scenario: a gem at `/gem` whose
`ext/json/extconf.rb` declares `create_makefile 'json/ext/parser'` and whose
build produced `parser.bundle`. -/
def fsJson : FSModel where
  isRegularFile := fun p => p = "/gem/ext/json/parser.bundle"
  readFile := fun p =>
    if p = "/gem/ext/json/extconf.rb" then
      some "require 'mkmf'\ncreate_makefile 'json/ext/parser'\n"
    else none
  copyOk := fun _ _ => true

/-- A descriptor declaring the module name with the parenthesised
`create_makefile('json/ext/parser')` form. -/
def fsJsonParen : FSModel where
  isRegularFile := fun _ => true
  readFile := fun p =>
    if p = "/gem/ext/json/extconf.rb" then
      some "require 'mkmf'\ncreate_makefile('json/ext/parser')\n"
    else none
  copyOk := fun _ _ => true

/-- A descriptor whose declared module name `../evil` escapes the package
root. -/
def fsEvil : FSModel where
  isRegularFile := fun _ => true
  readFile := fun p =>
    if p = "/gem/ext/json/extconf.rb" then some "create_makefile('../evil')" else none
  copyOk := fun _ _ => true

def cfgJson34 : BuildConfig :=
  { gemDir := "/gem", destPath := "", libDir := "", rubyVersion := "3.4.2",
    stopOnFailure := true }

def cfgJson33 : BuildConfig :=
  { gemDir := "/gem", destPath := "", libDir := "", rubyVersion := "3.3.0",
    stopOnFailure := true }

/-- A batch configuration whose only relevant field is the failure policy. -/
def batchConfig (stop : Bool) : BuildConfig :=
  { gemDir := "", destPath := "", libDir := "", rubyVersion := "", stopOnFailure := stop }

/-- A cancellation signal that never fires. -/
def ctxNever : CtxM := fun _ => none

/-- A cancellation signal already triggered at every check from index `k`
on (a real context, once cancelled, stays cancelled). -/
def ctxFrom (k : Nat) : CtxM := fun i => if k ≤ i then some ErrM.canceled else none

/-- Scenario builder A: claims `fail.ext` and fails with the given result and
error. -/
def builderA (e : ErrM) (resA : BuildResultM) : BuilderM where
  name := "A"
  canBuild := fun f => f = "fail.ext"
  build := fun _ _ => (some resA, some e)

/-- Scenario builder B: claims `ok.ext` and succeeds with the given result. -/
def builderB (resB : BuildResultM) : BuilderM where
  name := "B"
  canBuild := fun f => f = "ok.ext"
  build := fun _ _ => (some resB, none)

/-- An environment in which only the Ruby interpreter is installed. -/
def envRubyOnly : String → Bool := fun t => t = "ruby"

def reqCMake : ToolRequirement :=
  { name := "cmake", alternatives := [], optional := false, purpose := "CMake build system" }

def reqCargo : ToolRequirement :=
  { name := "cargo", alternatives := [], optional := false, purpose := "Rust compiler" }

def reqNinjaOpt : ToolRequirement :=
  { name := "ninja", alternatives := [], optional := true, purpose := "Ninja build tool" }

def reqCC : ToolRequirement :=
  { name := "gcc", alternatives := ["clang", "ruby"], optional := false, purpose := "C compiler" }

/-! ### List helper lemmas -/

theorem takeWhile_append_cases {α : Type} (p : α → Bool) (a b : List α) :
    (a ++ b).takeWhile p = if a.all p then a ++ b.takeWhile p else a.takeWhile p := by
  induction a with
  | nil => simp
  | cons x xs ih =>
    cases hx : p x with
    | true => simp [List.takeWhile_cons, hx, ih]; split <;> simp
    | false => simp [List.takeWhile_cons, hx]

theorem takeWhile_append_all {α : Type} (p : α → Bool) (a b : List α)
    (h : ∀ x ∈ a, p x = true) : (a ++ b).takeWhile p = a ++ b.takeWhile p := by
  rw [takeWhile_append_cases]
  simp [List.all_eq_true.mpr h]

theorem takeWhile_eq_self_of_all {α : Type} (p : α → Bool) (a : List α)
    (h : ∀ x ∈ a, p x = true) : a.takeWhile p = a := by
  induction a with
  | nil => rfl
  | cons x xs ih =>
    simp [List.takeWhile_cons, h x (List.mem_cons_self _ _),
      ih (fun y hy => h y (List.mem_cons_of_mem _ hy))]

/-! ### Lemmas about `splitChAux` and `joinSegs` -/

theorem splitChAux_ne_nil (sep : Char) (l : List Char) :
    ∀ acc, splitChAux sep acc l ≠ [] := by
  induction l with
  | nil => intro acc; simp [splitChAux]
  | cons c rest ih =>
    intro acc
    by_cases h : c = sep
    · simp [splitChAux, h]
    · simp only [splitChAux, if_neg h]
      exact ih _

theorem splitChAux_all_noSep (sep : Char) (l : List Char) (hl : ∀ c ∈ l, c ≠ sep) :
    ∀ acc, splitChAux sep acc l = [acc.reverse ++ l] := by
  induction l with
  | nil => intro acc; simp [splitChAux]
  | cons c rest ih =>
    intro acc
    have hc : c ≠ sep := hl c (List.mem_cons_self _ _)
    simp only [splitChAux, if_neg hc]
    rw [ih (fun y hy => hl y (List.mem_cons_of_mem _ hy))]
    simp

theorem splitChAux_append (sep : Char) (x : List Char) (hx : ∀ c ∈ x, c ≠ sep) :
    ∀ (l acc : List Char), splitChAux sep acc (x ++ l) = splitChAux sep (x.reverse ++ acc) l := by
  induction x with
  | nil => intro l acc; simp
  | cons c rest ih =>
    intro l acc
    have hc : c ≠ sep := hx c (List.mem_cons_self _ _)
    calc splitChAux sep acc ((c :: rest) ++ l)
        = splitChAux sep (c :: acc) (rest ++ l) := by simp [splitChAux, hc]
      _ = splitChAux sep (rest.reverse ++ (c :: acc)) l :=
          ih (fun y hy => hx y (List.mem_cons_of_mem _ hy)) l (c :: acc)
      _ = splitChAux sep ((c :: rest).reverse ++ acc) l := by simp

theorem splitChAux_mem_noSep (sep : Char) (l : List Char) :
    ∀ acc, (∀ c ∈ acc, c ≠ sep) →
      ∀ x ∈ splitChAux sep acc l, ∀ c ∈ x, c ≠ sep := by
  induction l with
  | nil =>
    intro acc hacc x hx c hc
    simp [splitChAux] at hx
    subst hx
    exact hacc c (List.mem_reverse.mp hc)
  | cons d rest ih =>
    intro acc hacc x hx c hc
    by_cases hd : d = sep
    · simp only [splitChAux, if_pos hd, List.mem_cons] at hx
      rcases hx with hx | hx
      · subst hx; exact hacc c (List.mem_reverse.mp hc)
      · exact ih [] (by simp) x hx c hc
    · simp only [splitChAux, if_neg hd] at hx
      refine ih (d :: acc) ?_ x hx c hc
      intro y hy
      rcases List.mem_cons.mp hy with hy | hy
      · subst hy; exact hd
      · exact hacc y hy

theorem segsOf_ne_nil (l : List Char) : segsOf l ≠ [] := splitChAux_ne_nil '/' l []

theorem segsOf_mem_noSep (l : List Char) :
    ∀ x ∈ segsOf l, ∀ c ∈ x, c ≠ '/' :=
  splitChAux_mem_noSep '/' l [] (by simp)

theorem lastChunk_eq_of_noSep (l : List Char) (h : ∀ c ∈ l, c ≠ '/') :
    lastChunk l = l := by
  unfold lastChunk
  rw [takeWhile_eq_self_of_all]
  · simp
  · intro x hx
    simp [isSep, h x (List.mem_reverse.mp hx)]

theorem noSep_of_not_mem {l : List Char} (h : '/' ∉ l) : ∀ c ∈ l, c ≠ '/' :=
  fun c hc hceq => h (hceq ▸ hc)

theorem lastChunk_cons_of_memSep (c : Char) (rest : List Char) (h : '/' ∈ rest) :
    lastChunk (c :: rest) = lastChunk rest := by
  unfold lastChunk
  have hrev : (c :: rest).reverse = rest.reverse ++ [c] := by simp
  rw [hrev, takeWhile_append_cases]
  have hall : rest.reverse.all (fun c => !(isSep c)) = false := by
    apply Bool.eq_false_iff.mpr
    intro hall
    have := List.all_eq_true.mp hall '/' (List.mem_reverse.mpr h)
    simp [isSep] at this
  rw [if_neg (by simp [hall])]

theorem lastChunk_cons_sep (rest : List Char) :
    lastChunk ('/' :: rest) = lastChunk rest := by
  by_cases h : '/' ∈ rest
  · exact lastChunk_cons_of_memSep _ _ h
  · unfold lastChunk
    have hrev : ('/' :: rest).reverse = rest.reverse ++ ['/'] := by simp
    have hall : ∀ x ∈ rest.reverse, (fun c => !(isSep c)) x = true := by
      intro x hx
      have : x ≠ '/' := noSep_of_not_mem h x (List.mem_reverse.mp hx)
      simp [isSep, this]
    rw [hrev, takeWhile_append_all _ _ _ hall]
    have : List.takeWhile (fun c => !(isSep c)) ['/'] = [] := by
      simp [List.takeWhile_cons, isSep]
    rw [this, List.append_nil, takeWhile_eq_self_of_all _ _ hall]

theorem splitChAux_getLast? (l : List Char) :
    ∀ acc, (splitChAux '/' acc l).getLast? =
      some (if '/' ∈ l then lastChunk l else acc.reverse ++ l) := by
  induction l with
  | nil => intro acc; simp [splitChAux]
  | cons c rest ih =>
    intro acc
    by_cases hc : c = '/'
    · simp only [splitChAux, if_pos hc]
      obtain ⟨y, ys, hys⟩ := List.exists_cons_of_ne_nil (splitChAux_ne_nil '/' rest [])
      rw [hys, List.getLast?_cons_cons, ← hys, ih []]
      rw [if_pos (show '/' ∈ c :: rest by simp [hc])]
      subst hc
      rw [lastChunk_cons_sep]
      by_cases hmem : '/' ∈ rest
      · rw [if_pos hmem]
      · rw [if_neg hmem, lastChunk_eq_of_noSep rest (noSep_of_not_mem hmem)]
        simp
    · simp only [splitChAux, if_neg hc]
      rw [ih (c :: acc)]
      by_cases hmem : '/' ∈ rest
      · rw [if_pos hmem, if_pos (show '/' ∈ c :: rest by simp [hmem]),
          lastChunk_cons_of_memSep c rest hmem]
      · rw [if_neg hmem, if_neg (show ¬ '/' ∈ c :: rest by
          simp [hmem]; exact fun h => hc h.symm)]
        simp

theorem segsOf_getLast? (l : List Char) : (segsOf l).getLast? = some (lastChunk l) := by
  unfold segsOf
  rw [splitChAux_getLast?]
  split
  · rfl
  · next hmem =>
    rw [lastChunk_eq_of_noSep l (noSep_of_not_mem hmem)]
    simp

theorem segsOf_decomp (l : List Char) :
    segsOf l = (segsOf l).dropLast ++ [lastChunk l] := by
  have hne := segsOf_ne_nil l
  have h1 : (segsOf l).getLast hne = lastChunk l := by
    have := segsOf_getLast? l
    rw [List.getLast?_eq_getLast _ hne] at this
    exact Option.some_injective _ this
  conv_lhs => rw [← List.dropLast_append_getLast hne]
  rw [h1]

theorem segsOf_joinSegs (out : List (List Char)) (hout : ∀ x ∈ out, ∀ c ∈ x, c ≠ '/') :
    out ≠ [] → segsOf (joinSegs out) = out := by
  induction out with
  | nil => intro h; exact absurd rfl h
  | cons x ys ih =>
    intro _
    cases ys with
    | nil =>
      show segsOf x = [x]
      exact splitChAux_all_noSep '/' x (hout x (List.mem_cons_self _ _)) []
    | cons y rest =>
      show segsOf (x ++ '/' :: joinSegs (y :: rest)) = x :: y :: rest
      unfold segsOf
      rw [splitChAux_append '/' x (hout x (List.mem_cons_self _ _))]
      simp only [splitChAux, if_pos rfl]
      rw [List.append_nil, List.reverse_reverse]
      have := ih (fun z hz => hout z (List.mem_cons_of_mem _ hz)) (by simp)
      unfold segsOf at this
      rw [this]
      simp

/-! ### Lemmas about `cleanStep` / `cleanAux` -/

theorem ddSeg_ne_nil : ddSeg ≠ [] := by simp [ddSeg]

theorem cleanStep_shape (rooted : Bool) (st : List (List Char)) (seg : List Char)
    (h : stackShape st) : stackShape (cleanStep rooted st seg) := by
  obtain ⟨pre, n, hst, hpre⟩ := h
  by_cases h1 : seg = [] ∨ seg = ['.']
  · rw [cleanStep.eq_def, if_pos h1]; exact ⟨pre, n, hst, hpre⟩
  · by_cases h2 : seg = ddSeg
    · rw [cleanStep.eq_def, if_neg h1, if_pos h2]
      cases hstc : st with
      | nil =>
        cases rooted
        · show stackShape [ddSeg]
          exact ⟨[], 1, rfl, by simp⟩
        · show stackShape []
          exact ⟨[], 0, rfl, by simp⟩
      | cons top tl =>
        show stackShape (if top = ddSeg then seg :: top :: tl else tl)
        by_cases h3 : top = ddSeg
        · rw [if_pos h3]
          have hpre_nil : pre = [] := by
            cases hprec : pre with
            | nil => rfl
            | cons p pre' =>
              exfalso
              rw [hprec] at hst hpre
              rw [hstc] at hst
              simp only [List.cons_append, List.cons.injEq] at hst
              exact hpre (by rw [← hst.1, h3]; exact List.mem_cons_self _ _)
          rw [hpre_nil, List.nil_append] at hst
          rw [hstc] at hst
          refine ⟨[], n + 1, ?_, by simp⟩
          rw [List.nil_append, List.replicate_succ, ← hst, h2]
        · rw [if_neg h3]
          cases hprec : pre with
          | nil =>
            exfalso
            rw [hprec, List.nil_append] at hst
            rw [hstc] at hst
            cases n with
            | zero => simp at hst
            | succ m =>
              rw [List.replicate_succ] at hst
              simp only [List.cons.injEq] at hst
              exact h3 hst.1
          | cons p pre' =>
            rw [hprec] at hst hpre
            rw [hstc] at hst
            simp only [List.cons_append, List.cons.injEq] at hst
            exact ⟨pre', n, hst.2, fun hm => hpre (List.mem_cons_of_mem _ hm)⟩
    · rw [cleanStep.eq_def, if_neg h1, if_neg h2]
      refine ⟨seg :: pre, n, by rw [hst]; rfl, ?_⟩
      intro hm
      rcases List.mem_cons.mp hm with hm | hm
      · exact h2 hm.symm
      · exact hpre hm

theorem cleanStep_mem (rooted : Bool) (st : List (List Char)) (seg x : List Char)
    (h : x ∈ cleanStep rooted st seg) :
    x ∈ st ∨ x = ddSeg ∨ (x = seg ∧ seg ≠ [] ∧ seg ≠ ['.']) := by
  by_cases h1 : seg = [] ∨ seg = ['.']
  · rw [cleanStep.eq_def, if_pos h1] at h; exact Or.inl h
  · by_cases h2 : seg = ddSeg
    · rw [cleanStep.eq_def, if_neg h1, if_pos h2] at h
      cases st with
      | nil =>
        cases rooted
        · have h' : x ∈ [ddSeg] := h
          exact Or.inr (Or.inl (List.mem_singleton.mp h'))
        · have h' : x ∈ ([] : List (List Char)) := h
          simp at h'
      | cons top tl =>
        have h' : x ∈ (if top = ddSeg then seg :: top :: tl else tl) := h
        by_cases h3 : top = ddSeg
        · rw [if_pos h3] at h'
          rcases List.mem_cons.mp h' with h'' | h''
          · exact Or.inr (Or.inl (h'' ▸ h2))
          · exact Or.inl h''
        · rw [if_neg h3] at h'
          exact Or.inl (List.mem_cons_of_mem _ h')
    · rw [cleanStep.eq_def, if_neg h1, if_neg h2] at h
      rcases List.mem_cons.mp h with h | h
      · push_neg at h1
        exact Or.inr (Or.inr ⟨h, h1.1, h1.2⟩)
      · exact Or.inl h

theorem cleanStep_noDD (st : List (List Char)) (seg : List Char)
    (h : ddSeg ∉ st) : ddSeg ∉ cleanStep true st seg := by
  by_cases h1 : seg = [] ∨ seg = ['.']
  · rw [cleanStep.eq_def, if_pos h1]; exact h
  · by_cases h2 : seg = ddSeg
    · rw [cleanStep.eq_def, if_neg h1, if_pos h2]
      cases st with
      | nil =>
        show ddSeg ∉ (if true = true then ([] : List (List Char)) else [ddSeg])
        simp
      | cons top tl =>
        show ddSeg ∉ (if top = ddSeg then seg :: top :: tl else tl)
        have h3 : top ≠ ddSeg := fun hh => h (hh ▸ List.mem_cons_self _ _)
        rw [if_neg h3]
        exact fun hm => h (List.mem_cons_of_mem _ hm)
    · rw [cleanStep.eq_def, if_neg h1, if_neg h2]
      intro hm
      rcases List.mem_cons.mp hm with hm | hm
      · exact h2 hm.symm
      · exact h hm
theorem cleanAux_shape (rooted : Bool) (input : List (List Char)) :
    ∀ st, stackShape st → stackShape (cleanAux rooted st input) := by
  induction input with
  | nil => intro st h; exact h
  | cons seg rest ih =>
    intro st h
    exact ih (cleanStep rooted st seg) (cleanStep_shape rooted st seg h)

theorem cleanAux_mem (rooted : Bool) (input : List (List Char)) :
    ∀ st x, x ∈ cleanAux rooted st input →
      x ∈ st ∨ x = ddSeg ∨ (x ∈ input ∧ x ≠ [] ∧ x ≠ ['.']) := by
  induction input with
  | nil => intro st x h; exact Or.inl h
  | cons seg rest ih =>
    intro st x h
    rcases ih (cleanStep rooted st seg) x h with h' | h' | h'
    · rcases cleanStep_mem rooted st seg x h' with h'' | h'' | h''
      · exact Or.inl h''
      · exact Or.inr (Or.inl h'')
      · exact Or.inr (Or.inr ⟨h''.1 ▸ List.mem_cons_self _ _, h''.1 ▸ h''.2.1, h''.1 ▸ h''.2.2⟩)
    · exact Or.inr (Or.inl h')
    · exact Or.inr (Or.inr ⟨List.mem_cons_of_mem _ h'.1, h'.2⟩)

theorem cleanAux_noDD (input : List (List Char)) :
    ∀ st, ddSeg ∉ st → ddSeg ∉ cleanAux true st input := by
  induction input with
  | nil => intro st h; exact h
  | cons seg rest ih =>
    intro st h
    exact ih (cleanStep true st seg) (cleanStep_noDD st seg h)

theorem cleanAux_append (rooted : Bool) (a b st : List (List Char)) :
    cleanAux rooted st (a ++ b) = cleanAux rooted (cleanAux rooted st a) b :=
  List.foldl_append _ _ _ _

theorem cleanAux_push (rooted : Bool) (st : List (List Char)) (seg : List Char)
    (h1 : seg ≠ []) (h2 : seg ≠ ['.']) (h3 : seg ≠ ddSeg) :
    cleanAux rooted st [seg] = seg :: st := by
  show cleanStep rooted st seg = seg :: st
  rw [cleanStep.eq_def, if_neg (by simp [h1, h2]), if_neg h3]

/-! ### The sanitizer never emits parent-directory segments -/

theorem segsOf_cons_sep (l : List Char) : segsOf ('/' :: l) = [] :: segsOf l := by
  simp [segsOf, splitChAux]

theorem noParent_mk (l : List Char) (h : ddSeg ∉ segsOf l) :
    noParentSegments (String.mk l) = true := by
  unfold noParentSegments
  exact decide_eq_true h

theorem pathClean_of_stack (s : String) (st : List (List Char))
    (hstack : cleanAux (isRooted s.data) [] (segsOf s.data) = st) (hne : st ≠ []) :
    pathClean s =
      if isRooted s.data then String.mk ('/' :: joinSegs st.reverse)
      else String.mk (joinSegs st.reverse) := by
  simp only [pathClean, hstack]
  rw [if_neg (by simp [hne])]

/-- Any path whose final segment is at least three characters long and
separator-free sanitizes to a path without parent-directory segments. -/
theorem safeRelativePath_noParent (p suffix : String)
    (h3 : 3 ≤ suffix.data.length)
    (hns : ∀ c ∈ suffix.data, c ≠ '/')
    (hsuf : suffix.data <:+ p.data) :
    noParentSegments (safeRelativePath p) = true := by
  obtain ⟨t, ht⟩ := hsuf
  have hsne : suffix.data ≠ [] := by
    intro hh; rw [hh] at h3; simp at h3
  have hlc : lastChunk p.data =
      (t.reverse.takeWhile (fun c => !(isSep c))).reverse ++ suffix.data := by
    unfold lastChunk
    rw [← ht, List.reverse_append, takeWhile_append_all _ _ _ (fun x hx => by
      simp [isSep, hns x (List.mem_reverse.mp hx)])]
    rw [List.reverse_append, List.reverse_reverse]
  have hlc_len : 3 ≤ (lastChunk p.data).length := by
    rw [hlc, List.length_append]; omega
  have hlc_ns : ∀ c ∈ lastChunk p.data, c ≠ '/' := by
    intro c hc
    have hc' := List.mem_reverse.mp hc
    have := List.mem_takeWhile_imp hc'
    simp only [Bool.not_eq_true'] at this
    simp [isSep] at this
    exact this
  have hlc_ne_nil : lastChunk p.data ≠ [] := by
    intro hh; rw [hh] at hlc_len; simp at hlc_len
  have hlc_ne_dot : lastChunk p.data ≠ ['.'] := by
    intro hh; rw [hh] at hlc_len; simp at hlc_len
  have hlc_ne_dd : lastChunk p.data ≠ ddSeg := by
    intro hh; rw [hh] at hlc_len; simp [ddSeg] at hlc_len
  have hpd_ne : p.data ≠ [] := by
    rw [← ht]
    intro hh
    exact hsne (List.append_eq_nil.mp hh).2
  -- the base name of `p` is its final chunk, which is parent-free
  obtain ⟨d, ds, hds⟩ :=
    List.exists_cons_of_ne_nil (show suffix.data.reverse ≠ [] by simp [hsne])
  have hd_ns : d ≠ '/' :=
    hns d (List.mem_reverse.mp (by rw [hds]; exact List.mem_cons_self _ _))
  have hrev : p.data.reverse = d :: (ds ++ t.reverse) := by
    rw [← ht, List.reverse_append, hds]; rfl
  have hdrop : p.data.reverse.dropWhile isSep = p.data.reverse := by
    rw [hrev, List.dropWhile_cons, if_neg (by simp [isSep, hd_ns])]
  have hbase : pathBase p = String.mk (lastChunk p.data) := by
    simp only [pathBase]
    rw [if_neg (fun he => hpd_ne (by rw [he]))]
    rw [hdrop, if_neg (by rw [hrev]; simp)]
    rfl
  have hnp_base : noParentSegments (pathBase p) = true := by
    rw [hbase]
    apply noParent_mk
    rw [show segsOf (lastChunk p.data) = [lastChunk p.data] from
      splitChAux_all_noSep '/' _ hlc_ns []]
    simp [List.mem_singleton]
    exact fun hh => hlc_ne_dd hh.symm
  -- the cleaned path: last chunk on top of the processed stack
  have hdecomp := segsOf_decomp p.data
  have hstack : cleanAux (isRooted p.data) [] (segsOf p.data) =
      lastChunk p.data :: cleanAux (isRooted p.data) [] ((segsOf p.data).dropLast) := by
    conv_lhs => rw [hdecomp]
    rw [cleanAux_append, cleanAux_push _ _ _ hlc_ne_nil hlc_ne_dot hlc_ne_dd]
  have hstk_mem : ∀ x ∈ cleanAux (isRooted p.data) [] ((segsOf p.data).dropLast),
      (∀ c ∈ x, c ≠ '/') ∧ x ≠ [] := by
    intro x hx
    rcases cleanAux_mem _ _ _ x hx with hx' | hx' | hx'
    · simp at hx'
    · subst hx'
      refine ⟨?_, ddSeg_ne_nil⟩
      intro c hc
      simp [ddSeg] at hc
      subst hc
      decide
    · refine ⟨?_, hx'.2.1⟩
      exact segsOf_mem_noSep _ x ((List.dropLast_sublist (segsOf p.data)).subset hx'.1)
  have hout_pieces : ∀ x ∈ (cleanAux (isRooted p.data) []
      ((segsOf p.data).dropLast)).reverse ++ [lastChunk p.data], ∀ c ∈ x, c ≠ '/' := by
    intro x hx
    rcases List.mem_append.mp hx with hx | hx
    · exact (hstk_mem x (List.mem_reverse.mp hx)).1
    · rw [List.mem_singleton.mp hx]
      exact hlc_ns
  have hclean := pathClean_of_stack p _ hstack (by simp)
  rw [List.reverse_cons] at hclean
  -- case split on the sanitizer's collapse condition
  show noParentSegments
      (if pathClean p = "." ∨ hasPrefixS (pathClean p) "../" = true then pathBase p
       else pathClean p) = true
  split
  · exact hnp_base
  · next hcond =>
    push_neg at hcond
    cases hr : isRooted p.data with
    | true =>
      rw [hr] at hclean hout_pieces
      rw [hclean, if_pos rfl]
      apply noParent_mk
      rw [segsOf_cons_sep, segsOf_joinSegs _ hout_pieces (by simp)]
      intro hm
      rcases List.mem_cons.mp hm with hm | hm
      · exact ddSeg_ne_nil hm
      · rcases List.mem_append.mp hm with hm | hm
        · exact cleanAux_noDD ((segsOf p.data).dropLast) [] (by simp)
            (List.mem_reverse.mp hm)
        · exact hlc_ne_dd (List.mem_singleton.mp hm).symm
    | false =>
      rw [hr] at hclean hout_pieces
      rw [hclean, if_neg (by simp)]
      obtain ⟨pre, n, hst, hpre⟩ :=
        cleanAux_shape false ((segsOf p.data).dropLast) [] ⟨[], 0, rfl, by simp⟩
      cases n with
      | zero =>
        rw [List.replicate_zero, List.append_nil] at hst
        apply noParent_mk
        rw [segsOf_joinSegs _ hout_pieces (by simp)]
        intro hm
        rcases List.mem_append.mp hm with hm | hm
        · rw [hst] at hm
          exact hpre (List.mem_reverse.mp hm)
        · exact hlc_ne_dd (List.mem_singleton.mp hm).symm
      | succ m =>
        exfalso
        have hout_eq : (cleanAux false [] ((segsOf p.data).dropLast)).reverse ++
            [lastChunk p.data] =
            ddSeg :: (List.replicate m ddSeg ++ (pre.reverse ++ [lastChunk p.data])) := by
          rw [hst, List.reverse_append, List.reverse_replicate, List.replicate_succ]
          simp
        obtain ⟨y, ys, hys⟩ := List.exists_cons_of_ne_nil
          (show List.replicate m ddSeg ++ (pre.reverse ++ [lastChunk p.data]) ≠ [] by simp)
        apply hcond.2
        rw [hclean, if_neg (by simp), hout_eq, hys]
        show hasPrefixS (String.mk (ddSeg ++ '/' :: joinSegs (y :: ys))) "../" = true
        unfold hasPrefixS
        apply decide_eq_true
        exact ⟨joinSegs (y :: ys), rfl⟩

/-! ### Native-library suffix facts and the install resolver's guarantee -/

theorem pathExt_no_sep (s : String) : ∀ c ∈ (pathExt s).data, c ≠ '/' := by
  intro c hc
  simp only [pathExt] at hc
  split at hc
  · simp at hc
  · rcases List.mem_cons.mp hc with hc' | hc'
    · subst hc'; decide
    · have h1 := List.mem_reverse.mp hc'
      have h2 := (List.takeWhile_prefix (fun c => !(isDot c))).subset h1
      have h3 := List.mem_takeWhile_imp h2
      simp [isSep] at h3
      exact h3

theorem native_suffix_facts (r : String) (h : isNativeLibrary r = true) :
    3 ≤ (pathExt r).data.length ∧ pathExt r ≠ "" := by
  unfold isNativeLibrary at h
  have h' := of_decide_eq_true h
  have hlow : 3 ≤ ((strToLower (pathExt r)).data).length := by
    simp [nativeLibraryExtensions] at h'
    rcases h' with h' | h' | h' | h' <;> rw [h'] <;> decide
  have hmap : (strToLower (pathExt r)).data = (pathExt r).data.map lowerChar := rfl
  rw [hmap, List.length_map] at hlow
  refine ⟨hlow, ?_⟩
  intro he
  rw [he] at hlow
  simp at hlow

theorem ensureSuffix_hasSuffix (path suffix : String) (h : suffix ≠ "") :
    suffix.data <:+ (ensureSuffix path suffix).data := by
  unfold ensureSuffix
  split
  · show suffix.data <:+ (path ++ suffix).data
    rw [show (path ++ suffix).data = path.data ++ suffix.data from rfl]
    exact List.suffix_append _ _
  · next hc =>
    push_neg at hc
    have h2 : hasSuffixS path suffix = true := by
      cases hb : hasSuffixS path suffix with
      | false => exact absurd hb (hc h)
      | true => rfl
    exact of_decide_eq_true h2

/-- Whenever the install resolver derives a relative path for a native-library
artifact, the sanitized result contains no parent-directory segment. -/
theorem determineInstallRelativePath_noParent (fs : FSModel)
    (gemDir extensionFile builtRel : String) (h : isNativeLibrary builtRel = true) :
    noParentSegments (determineInstallRelativePath fs gemDir extensionFile builtRel) = true := by
  obtain ⟨hlen, hne⟩ := native_suffix_facts builtRel h
  have hns := pathExt_no_sep builtRel
  simp only [determineInstallRelativePath]
  split
  · exact safeRelativePath_noParent _ _ hlen hns (ensureSuffix_hasSuffix _ _ hne)
  · split
    · exact safeRelativePath_noParent _ _ hlen hns (ensureSuffix_hasSuffix _ _ hne)
    · exact safeRelativePath_noParent _ _ hlen hns (ensureSuffix_hasSuffix _ _ hne)

/-! ### The claims -/

/-- C1 counterexample: the claim says an escaping derived path collapses to
the artifact's base name.  With a declared module name `../evil` and artifact
`parser.bundle`, the derived path `../evil.bundle` is `..`-relative and the
sanitizer collapses it to `evil.bundle`, the base name of the derived path,
which differs from the artifact's base name `parser.bundle`. -/
theorem claim_c1_counterexample :
    moduleFromCreateMakefile fsEvil "/gem" "ext/json/extconf.rb" = "../evil" ∧
    pathClean "../evil.bundle" = "../evil.bundle" ∧
    determineInstallRelativePath fsEvil "/gem" "ext/json/extconf.rb" "parser.bundle" =
      "evil.bundle" ∧
    pathBase "parser.bundle" = "parser.bundle" ∧
    ("evil.bundle" : String) ≠ "parser.bundle" := by
  refine ⟨by decide, by decide, by decide, by decide, by decide⟩

/-- C1 (amended): for every install of a native-library artifact, the
sanitized result of the install resolver never contains a parent-directory
segment; an escaping or empty derived path collapses to the base name of the
derived path (a single, parent-free component), which need not equal the
artifact's base name. -/
theorem claim_c1_amended (fs : FSModel) (gemDir extensionFile builtRel : String)
    (h : isNativeLibrary builtRel = true) :
    noParentSegments (determineInstallRelativePath fs gemDir extensionFile builtRel) = true :=
  determineInstallRelativePath_noParent fs gemDir extensionFile builtRel h

theorem claim_c1_amended_witness :
    isNativeLibrary "parser.bundle" = true ∧
    noParentSegments
      (determineInstallRelativePath fsEvil "/gem" "ext/json/extconf.rb" "parser.bundle") = true :=
  ⟨by decide, claim_c1_amended fsEvil "/gem" "ext/json/extconf.rb" "parser.bundle" (by decide)⟩

/-- C3: a descriptor declaring module name `json/ext/parser` through the
`create_makefile` pattern together with artifact `parser.bundle` resolves to
the relative install path `json/ext/parser.bundle`: the declared name is used
and the artifact's suffix is appended since it is missing. -/
theorem claim_c3 (fs : FSModel) (gemDir : String)
    (hread : fs.readFile (pathJoin gemDir "ext/json/extconf.rb") =
      some "require 'mkmf'\ncreate_makefile('json/ext/parser')\n") :
    determineInstallRelativePath fs gemDir "ext/json/extconf.rb" "parser.bundle" =
      "json/ext/parser.bundle" := by
  have hmod : moduleFromCreateMakefile fs gemDir "ext/json/extconf.rb" = "json/ext/parser" := by
    unfold moduleFromCreateMakefile
    rw [if_neg (by decide), hread]
    decide
  simp only [determineInstallRelativePath]
  rw [hmod]
  decide

theorem claim_c3_witness :
    fsJsonParen.readFile (pathJoin "/gem" "ext/json/extconf.rb") =
      some "require 'mkmf'\ncreate_makefile('json/ext/parser')\n" ∧
    determineInstallRelativePath fsJsonParen "/gem" "ext/json/extconf.rb" "parser.bundle" =
      "json/ext/parser.bundle" :=
  ⟨by decide, claim_c3 fsJsonParen "/gem" (by decide)⟩

/-- C2: with a parseable runtime version at or above the 3.4 threshold
(major > 3, or major = 3 and minor >= 4), the version-qualified directory is
the primary destination and the unversioned base directory is kept as an
additional destination; below the threshold (e.g. "3.3.0") no
version-qualified directory is introduced; and in the concrete
`install_test.go` scenario the artifact is copied to both `lib/3.4/...` and
`lib/...` while the returned installed-path list references only the
version-qualified location. -/
theorem claim_c2 :
    (∀ (config : BuildConfig) (major minor : Int) (b : String),
      parseRubyVersion config.rubyVersion = some (major, minor) →
      (major > 3 ∨ (major = 3 ∧ minor ≥ 4)) →
      gatherBaseDirectories config = [b] → b ≠ "" →
      installTargets config =
        (pathJoin b (toString major ++ "." ++ toString minor), [b])) ∧
    (∀ (config : BuildConfig) (b : String),
      config.rubyVersion = "3.3.0" →
      gatherBaseDirectories config = [b] →
      installTargets config = (b, [])) ∧
    finalizeNativeExtensions fsJson cfgJson34 "ext/json/extconf.rb" "/gem/ext/json"
        ["parser.bundle"] =
      some (["lib/3.4/json/ext/parser.bundle"],
        [("/gem/ext/json/parser.bundle", "/gem/lib/3.4/json/ext/parser.bundle"),
         ("/gem/ext/json/parser.bundle", "/gem/lib/json/ext/parser.bundle")]) := by
  refine ⟨?_, ?_, by decide⟩
  · intro config major minor b hparse hthr hgather hbne
    unfold installTargets
    rw [hgather]
    unfold rubyVersionDirectory
    rw [hparse]
    simp [hthr, uniqueStrings, uniqueAux, hbne]
  · intro config b hv hgather
    unfold installTargets
    rw [hgather]
    unfold rubyVersionDirectory
    rw [hv, show parseRubyVersion "3.3.0" = some (3, 3) from by decide]
    have hthr : ¬((3 : Int) > 3 ∨ (3 : Int) = 3 ∧ (3 : Int) ≥ 4) := by decide
    simp [hthr, uniqueStrings, uniqueAux]

theorem claim_c2_witness :
    (parseRubyVersion cfgJson34.rubyVersion = some (3, 4) ∧
      gatherBaseDirectories cfgJson34 = ["/gem/lib"] ∧
      installTargets cfgJson34 =
        (pathJoin "/gem/lib" (toString (3 : Int) ++ "." ++ toString (4 : Int)), ["/gem/lib"])) ∧
    (cfgJson33.rubyVersion = "3.3.0" ∧ gatherBaseDirectories cfgJson33 = ["/gem/lib"] ∧
      installTargets cfgJson33 = ("/gem/lib", [])) :=
  ⟨⟨by decide, by decide,
      claim_c2.1 cfgJson34 3 4 "/gem/lib" (by decide) (by decide) (by decide) (by decide)⟩,
    ⟨rfl, by decide, claim_c2.2.1 cfgJson33 "/gem/lib" rfl (by decide)⟩⟩

/-! ### Registry claims -/

theorem dropWhile_head_not {α : Type} (p : α → Bool) (l : List α) :
    ∀ x xs, l.dropWhile p = x :: xs → p x = false := by
  induction l with
  | nil => intro x xs h; simp at h
  | cons c cs ih =>
    intro x xs h
    rw [List.dropWhile_cons] at h
    split at h
    · exact ih x xs h
    · next hc =>
      cases h
      exact Bool.eq_false_iff.mpr hc

theorem pathBase_of_noSep (s : String) (hne : s.data ≠ []) (hns : ∀ c ∈ s.data, c ≠ '/') :
    pathBase s = s := by
  simp only [pathBase]
  rw [if_neg (fun h => hne (by rw [h]))]
  have hall : ∀ x ∈ s.data.reverse, isSep x = false := fun x hx => by
    simp [isSep, hns x (List.mem_reverse.mp hx)]
  have hdw : s.data.reverse.dropWhile isSep = s.data.reverse := by
    cases hrev : s.data.reverse with
    | nil => rfl
    | cons c cs =>
      rw [List.dropWhile_cons,
        if_neg (by simp [hall c (by rw [hrev]; exact List.mem_cons_self _ _)])]
  rw [hdw, if_neg (by simp [hne])]
  rw [takeWhile_eq_self_of_all _ _ (fun x hx => by simp [hall x hx])]
  simp

theorem pathBase_shape (f : String) :
    pathBase f = "." ∨ pathBase f = "/" ∨
      ((pathBase f).data ≠ [] ∧ ∀ c ∈ (pathBase f).data, c ≠ '/') := by
  by_cases h0 : f = ""
  · subst h0; exact Or.inl (by decide)
  · have hpb : pathBase f =
        (if f.data.reverse.dropWhile isSep = [] then "/"
         else String.mk
          ((List.takeWhile (fun c => !(isSep c)) (f.data.reverse.dropWhile isSep)).reverse)) := by
      simp only [pathBase, if_neg h0]
    cases hdw : f.data.reverse.dropWhile isSep with
    | nil =>
      refine Or.inr (Or.inl ?_)
      rw [hpb, hdw, if_pos rfl]
    | cons c cs =>
      refine Or.inr (Or.inr ?_)
      rw [hpb, hdw, if_neg (by simp)]
      have hc := dropWhile_head_not isSep f.data.reverse c cs hdw
      constructor
      · show (List.takeWhile (fun ch => !(isSep ch)) (c :: cs)).reverse ≠ []
        rw [List.takeWhile_cons, if_pos (by simp [hc])]
        simp
      · intro ch hch
        have hch' : ch ∈ (List.takeWhile (fun ch => !(isSep ch)) (c :: cs)).reverse := hch
        have := List.mem_takeWhile_imp (List.mem_reverse.mp hch')
        simp [isSep] at this
        exact this

theorem pathBase_idem (f : String) : pathBase (pathBase f) = pathBase f := by
  rcases pathBase_shape f with h | h | ⟨h1, h2⟩
  · rw [h]; decide
  · rw [h]; decide
  · exact pathBase_of_noSep _ h1 h2

/-- C4: the registry resolver matches only the final path segment of the
descriptor against each registered adapter's predicate, in registration
order, returning the first whose predicate holds, and a no-adapter-found
error naming the unmatched file when none does. -/
theorem claim_c4 :
    (∀ (bs₁ bs₂ : List BuilderM) (b : BuilderM) (f : String),
      b.canBuild (pathBase f) = true →
      (∀ b' ∈ bs₁, b'.canBuild (pathBase f) = false) →
      builderFor (bs₁ ++ b :: bs₂) f = Except.ok b) ∧
    (∀ (bs : List BuilderM) (f : String),
      (∀ b ∈ bs, b.canBuild (pathBase f) = false) →
      builderFor bs f = Except.error (ErrM.noBuilderFound (pathBase f))) ∧
    (∀ (bs : List BuilderM) (f : String), builderFor bs f = builderFor bs (pathBase f)) := by
  refine ⟨?_, ?_, ?_⟩
  · intro bs₁ bs₂ b f hb hnone
    simp only [builderFor]
    have hfind : List.find? (fun b' => b'.canBuild (pathBase f)) (b :: bs₂) = some b :=
      List.find?_cons_of_pos _ hb
    rw [List.find?_append, List.find?_eq_none.mpr (fun b' hb' => by simp [hnone b' hb']),
      Option.none_or, hfind]
  · intro bs f hnone
    simp only [builderFor]
    rw [List.find?_eq_none.mpr (fun b hb => by simp [hnone b hb])]
  · intro bs f
    simp only [builderFor]
    rw [pathBase_idem]

theorem claim_c4_witness :
    extConfBuilder.canBuild (pathBase "ext/myext/extconf.rb") = true ∧
    builderFor ([] ++ extConfBuilder :: [configureBuilder]) "ext/myext/extconf.rb" =
      Except.ok extConfBuilder ∧
    builderFor newBuilderFactory "sub/weird.file" =
      Except.error (ErrM.noBuilderFound (pathBase "sub/weird.file")) :=
  ⟨by decide,
    claim_c4.1 [] [configureBuilder] extConfBuilder "ext/myext/extconf.rb" (by decide)
      (by intro b' hb'; simp at hb'),
    claim_c4.2.1 newBuilderFactory "sub/weird.file" (by decide)⟩

/-- C5 counterexample: the default registry registers exactly five adapters
(legacy-script, configure-script, task-runner, CMake, package-manager); no
plain-makefile adapter (named "Makefile" in the sources) and no generic
adapters are registered by default, contrary to the claimed order. -/
theorem claim_c5_counterexample :
    newBuilderFactory.length = 5 ∧
    (∀ b ∈ newBuilderFactory, b.name ≠ "Makefile") ∧
    newBuilderFactory.map BuilderM.name = ["ExtConf", "Configure", "Rake", "CMake", "Cargo"] :=
  ⟨rfl, by decide, rfl⟩

/-- C5 (amended): the default registry registers, in this order, exactly the
legacy-script adapter, the configure-script adapter, the task-runner adapter,
the CMake adapter and the package-manager adapter; no plain-makefile adapter
and no generic adapters are registered. -/
theorem claim_c5_amended :
    newBuilderFactory =
      [extConfBuilder, configureBuilder, rakeBuilder, cmakeBuilder, cargoBuilder] ∧
    newBuilderFactory.map BuilderM.name = ["ExtConf", "Configure", "Rake", "CMake", "Cargo"] :=
  ⟨rfl, rfl⟩

/-- C9: the legacy-script adapter's predicate holds of every filename ending
in the substring "extconf.rb" (e.g. "myextconf.rb"), not only the exact
filename, and since it is registered first the resolver selects it for every
descriptor whose final path segment ends in that substring. -/
theorem claim_c9 :
    (∀ f : String, extConfBuilder.canBuild f = hasSuffixS f "extconf.rb") ∧
    extConfBuilder.canBuild "myextconf.rb" = true ∧
    (∀ f : String, hasSuffixS (pathBase f) "extconf.rb" = true →
      builderFor newBuilderFactory f = Except.ok extConfBuilder) := by
  refine ⟨fun f => rfl, by decide, ?_⟩
  intro f h
  simp only [builderFor, newBuilderFactory]
  have hfind : List.find? (fun b => b.canBuild (pathBase f))
      [extConfBuilder, configureBuilder, rakeBuilder, cmakeBuilder, cargoBuilder] =
      some extConfBuilder := List.find?_cons_of_pos _ h
  rw [hfind]

theorem claim_c9_witness :
    hasSuffixS (pathBase "sub/myextconf.rb") "extconf.rb" = true ∧
    builderFor newBuilderFactory "sub/myextconf.rb" = Except.ok extConfBuilder :=
  ⟨by decide, claim_c9.2.2 "sub/myextconf.rb" (by decide)⟩

/-! ### Batch runner claims -/

/-- C7: at any point of a batch where the cancellation signal is already
triggered before a target is processed, the runner appends exactly one result
carrying the cancellation error, records no adapter resolution and no build
invocation from that point on, and stops (the outcome does not depend on the
remaining targets); from the first target this is the whole batch outcome. -/
theorem claim_c7 :
    (∀ (builders : List BuilderM) (config : BuildConfig) (ctx : CtxM) (i : Nat)
        (firstError : Option ErrM) (x : String) (rest : List String) (e : ErrM),
      ctx i = some e →
      runBatchAux builders config ctx i firstError (x :: rest) =
        some ([{ success := false, output := [], extensions := [], error := some e }],
          if firstError = none then some e else firstError, [])) ∧
    (∀ (builders : List BuilderM) (config : BuildConfig) (ctx : CtxM)
        (x : String) (rest : List String) (e : ErrM),
      ctx 0 = some e →
      buildAllExtensions builders config ctx (x :: rest) =
        some ([{ success := false, output := [], extensions := [], error := some e }],
          some e, [])) := by
  have h1 : ∀ (builders : List BuilderM) (config : BuildConfig) (ctx : CtxM) (i : Nat)
      (firstError : Option ErrM) (x : String) (rest : List String) (e : ErrM),
      ctx i = some e →
      runBatchAux builders config ctx i firstError (x :: rest) =
        some ([{ success := false, output := [], extensions := [], error := some e }],
          if firstError = none then some e else firstError, []) := by
    intro builders config ctx i firstError x rest e hctx
    simp only [runBatchAux]
    rw [hctx]
  refine ⟨h1, ?_⟩
  intro builders config ctx x rest e hctx
  unfold buildAllExtensions
  rw [if_neg (by simp), h1 builders config ctx 0 none x rest e hctx]
  rfl

theorem claim_c7_witness :
    ctxFrom 0 0 = some ErrM.canceled ∧
    buildAllExtensions newBuilderFactory (batchConfig true) (ctxFrom 0) ["ext/a/extconf.rb"] =
      some ([{ success := false, output := [], extensions := [], error := some ErrM.canceled }],
        some ErrM.canceled, []) :=
  ⟨by decide, claim_c7.2 newBuilderFactory (batchConfig true) (ctxFrom 0) "ext/a/extconf.rb" []
    ErrM.canceled (by decide)⟩

/-- C6: with stop-on-failure enabled, a batch of a failing target followed by
a target that would succeed yields exactly one result and the second adapter
is never invoked; with stop-on-failure disabled, both targets are processed,
the second adapter is invoked exactly once, and the returned first error is
the failing target's error. -/
theorem claim_c6 (e : ErrM) (resA resB : BuildResultM)
    (hA : resA.success = false) (hB : resB.success = true) :
    (buildAllExtensions [builderA e resA, builderB resB] (batchConfig true) ctxNever
        ["ext/fail.ext", "ext/ok.ext"] =
      some ([resA], some e, [EvM.resolve "ext/fail.ext", EvM.build "A" "ext/fail.ext"])) ∧
    (EvM.build "B" "ext/ok.ext" ∉ [EvM.resolve "ext/fail.ext", EvM.build "A" "ext/fail.ext"]) ∧
    (buildAllExtensions [builderA e resA, builderB resB] (batchConfig false) ctxNever
        ["ext/fail.ext", "ext/ok.ext"] =
      some ([resA, resB], some e,
        [EvM.resolve "ext/fail.ext", EvM.build "A" "ext/fail.ext",
         EvM.resolve "ext/ok.ext", EvM.build "B" "ext/ok.ext"])) ∧
    ([EvM.resolve "ext/fail.ext", EvM.build "A" "ext/fail.ext",
      EvM.resolve "ext/ok.ext", EvM.build "B" "ext/ok.ext"].count
        (EvM.build "B" "ext/ok.ext") = 1) := by
  have hcb1 : (builderA e resA).canBuild (pathBase "ext/fail.ext") = true := by
    show decide (pathBase "ext/fail.ext" = "fail.ext") = true
    decide
  have hcb2f : (builderA e resA).canBuild (pathBase "ext/ok.ext") = false := by
    show decide (pathBase "ext/ok.ext" = "fail.ext") = false
    decide
  have hcb2 : (builderB resB).canBuild (pathBase "ext/ok.ext") = true := by
    show decide (pathBase "ext/ok.ext" = "ok.ext") = true
    decide
  have hbf1 : builderFor [builderA e resA, builderB resB] "ext/fail.ext" =
      Except.ok (builderA e resA) := by
    simp only [builderFor]
    have hfind : List.find? (fun b => b.canBuild (pathBase "ext/fail.ext"))
        [builderA e resA, builderB resB] = some (builderA e resA) :=
      List.find?_cons_of_pos _ hcb1
    rw [hfind]
  have hbf2 : builderFor [builderA e resA, builderB resB] "ext/ok.ext" =
      Except.ok (builderB resB) := by
    simp only [builderFor]
    have hfind2 : List.find? (fun b => b.canBuild (pathBase "ext/ok.ext"))
        [builderB resB] = some (builderB resB) := List.find?_cons_of_pos _ hcb2
    have hstep : List.find? (fun b => b.canBuild (pathBase "ext/ok.ext"))
        [builderA e resA, builderB resB] =
        List.find? (fun b => b.canBuild (pathBase "ext/ok.ext")) [builderB resB] :=
      List.find?_cons_of_neg _ (by rw [hcb2f]; simp)
    rw [hstep, hfind2]
  refine ⟨?_, by decide, ?_, by decide⟩
  · have hbuild1 : (builderA e resA).build (batchConfig true) "ext/fail.ext" =
        (some resA, some e) := rfl
    simp [buildAllExtensions, runBatchAux, hbf1, hbuild1, hA, ctxNever]
    simp [batchConfig, builderA]
  · have hbuild1 : (builderA e resA).build (batchConfig false) "ext/fail.ext" =
        (some resA, some e) := rfl
    have hbuild2 : (builderB resB).build (batchConfig false) "ext/ok.ext" =
        (some resB, none) := rfl
    simp [buildAllExtensions, runBatchAux, hbf1, hbf2, hbuild1, hbuild2, hA, hB, ctxNever]
    simp [batchConfig, builderA, builderB]

theorem claim_c6_witness :
    (BuildResultM.mk false [] [] (some (ErrM.custom 0))).success = false ∧
    (BuildResultM.mk true [] [] none).success = true ∧
    (buildAllExtensions
        [builderA (ErrM.custom 0) (BuildResultM.mk false [] [] (some (ErrM.custom 0))),
         builderB (BuildResultM.mk true [] [] none)] (batchConfig true) ctxNever
        ["ext/fail.ext", "ext/ok.ext"] =
      some ([BuildResultM.mk false [] [] (some (ErrM.custom 0))], some (ErrM.custom 0),
        [EvM.resolve "ext/fail.ext", EvM.build "A" "ext/fail.ext"])) :=
  ⟨rfl, rfl,
    (claim_c6 (ErrM.custom 0) (BuildResultM.mk false [] [] (some (ErrM.custom 0)))
      (BuildResultM.mk true [] [] none) rfl rfl).1⟩

/-! ### Tool requirement checker claims -/

theorem checkAvail_isNone (env : String → Bool) (t : String) :
    (checkToolAvailable env t).isNone = env t := by
  unfold checkToolAvailable
  cases h : env t <;> simp [h]

theorem missingOf_eq_filter (env : String → Bool) (reqs : List ToolRequirement) :
    missingOf env reqs =
      (reqs.filter (fun r => !(reqFound env r) && !(r.optional))).map missingLabel := by
  induction reqs with
  | nil => rfl
  | cons r rest ih =>
    by_cases h : reqFound env r = false ∧ r.optional = false
    · rw [missingOf, if_pos h, List.filter_cons_of_pos (by simp [h.1, h.2]), List.map_cons, ih]
    · rw [missingOf, if_neg h, List.filter_cons_of_neg (by
        simp only [Bool.and_eq_true, Bool.not_eq_true']
        intro hc
        exact h hc), ih]

/-- C8: a requirement is satisfied exactly when its primary name or one of
its alternatives is available; a batch of requirements whose unmet entries
are all optional yields no error; exactly one missing required tool yields
the single-tool message; two or more missing required tools yield one
aggregated message listing all of them with their purposes. -/
theorem claim_c8 :
    (∀ (env : String → Bool) (req : ToolRequirement),
      reqFound env req = true ↔
        (env req.name = true ∨ ∃ alt ∈ req.alternatives, env alt = true)) ∧
    (∀ (env : String → Bool) (reqs : List ToolRequirement),
      (∀ r ∈ reqs, reqFound env r = false → r.optional = true) →
      checkRequiredTools env reqs = none) ∧
    (∀ (env : String → Bool) (reqs : List ToolRequirement) (r : ToolRequirement),
      reqs.filter (fun r => !(reqFound env r) && !(r.optional)) = [r] →
      checkRequiredTools env reqs = some (missingLabel r ++ " not found in PATH")) ∧
    (∀ (env : String → Bool) (reqs : List ToolRequirement) (r₁ r₂ : ToolRequirement)
        (rs : List ToolRequirement),
      reqs.filter (fun r => !(reqFound env r) && !(r.optional)) = r₁ :: r₂ :: rs →
      checkRequiredTools env reqs =
        some ("missing required tools: " ++ joinComma ((r₁ :: r₂ :: rs).map missingLabel))) := by
  refine ⟨?_, ?_, ?_, ?_⟩
  · intro env req
    simp only [reqFound, checkAvail_isNone]
    by_cases hn : env req.name = true
    · simp [hn]
    · have hn' : env req.name = false := by revert hn; cases env req.name <;> simp
      by_cases ha : req.alternatives = []
      · simp [hn', ha]
      · simp [hn', ha, List.any_eq_true, checkAvail_isNone]
  · intro env reqs h
    unfold checkRequiredTools
    rw [missingOf_eq_filter]
    have hnil : reqs.filter (fun r => !(reqFound env r) && !(r.optional)) = [] := by
      rw [List.filter_eq_nil_iff]
      intro r hr
      simp only [Bool.and_eq_true, Bool.not_eq_true']
      rintro ⟨h1, h2⟩
      rw [h r hr h1] at h2
      cases h2
    rw [hnil]
    rfl
  · intro env reqs r hfilter
    unfold checkRequiredTools
    rw [missingOf_eq_filter, hfilter]
    rfl
  · intro env reqs r₁ r₂ rs hfilter
    unfold checkRequiredTools
    rw [missingOf_eq_filter, hfilter]
    rfl

theorem claim_c8_witness :
    checkRequiredTools envRubyOnly [reqCMake] =
      some (missingLabel reqCMake ++ " not found in PATH") ∧
    checkRequiredTools envRubyOnly [reqCMake, reqCargo] =
      some ("missing required tools: " ++ joinComma ([reqCMake, reqCargo].map missingLabel)) ∧
    checkRequiredTools envRubyOnly [reqNinjaOpt] = none ∧
    reqFound envRubyOnly reqCC = true :=
  ⟨claim_c8.2.2.1 envRubyOnly [reqCMake] reqCMake (by decide),
    claim_c8.2.2.2 envRubyOnly [reqCMake, reqCargo] reqCMake reqCargo [] (by decide),
    claim_c8.2.1 envRubyOnly [reqNinjaOpt] (by decide),
    (claim_c8.1 envRubyOnly reqCC).mpr (Or.inr ⟨"ruby", by decide, rfl⟩)⟩

/-! ### Install resolver pass-through of non-native artifacts -/

theorem installLoop_filter (fs : FSModel) (g e d p : String) (ex : List String) :
    ∀ built, installLoop fs g e d p ex built =
      installLoop fs g e d p ex (built.filter isNativeLibrary) := by
  intro built
  induction built with
  | nil => rfl
  | cons rel rest ih =>
    by_cases hn : isNativeLibrary rel = true
    · rw [List.filter_cons_of_pos hn]
      simp only [installLoop, hn]
      rw [ih]
    · have hn' : isNativeLibrary rel = false := by
        revert hn; cases isNativeLibrary rel <;> simp
      rw [List.filter_cons_of_neg (by simp [hn'])]
      simp only [installLoop, hn']
      simpa using ih

theorem copyExtra_src (fs : FSModel) (src rd : String) :
    ∀ (dests : List String) (cs : List (String × String)),
      copyExtra fs src rd dests = some cs → ∀ cp ∈ cs, cp.1 = src := by
  intro dests
  induction dests with
  | nil =>
    intro cs h cp hcp
    simp only [copyExtra] at h
    cases h
    simp at hcp
  | cons dd dds ih =>
    intro cs h cp hcp
    simp only [copyExtra] at h
    split at h
    · cases hce : copyExtra fs src rd dds with
      | none => rw [hce] at h; cases h
      | some cs' =>
        rw [hce] at h
        cases h
        rcases List.mem_cons.mp hcp with hcp | hcp
        · rw [hcp]
        · exact ih cs' hce cp hcp
    · cases h

theorem installLoop_sources (fs : FSModel)
    (gemDir extensionFile extensionDir primaryDest : String) (extraDests : List String) :
    ∀ (built installed : List String) (copies : List (String × String)),
      installLoop fs gemDir extensionFile extensionDir primaryDest extraDests built =
        some (installed, copies) →
      (∀ q ∈ installed, ∃ rel, rel ∈ built ∧ isNativeLibrary rel = true ∧
        q = installedEntryOf gemDir primaryDest (resolvedRelDest fs gemDir extensionFile rel)) ∧
      (∀ cp ∈ copies, ∃ rel, rel ∈ built ∧ isNativeLibrary rel = true ∧
        cp.1 = pathJoin extensionDir rel) := by
  intro built
  induction built with
  | nil =>
    intro installed copies h
    simp only [installLoop] at h
    cases h
    constructor
    · intro q hq; simp at hq
    · intro cp hcp; simp at hcp
  | cons rel rest ih =>
    intro installed copies h
    by_cases hn : isNativeLibrary rel = true
    · simp only [installLoop] at h
      have hn2 : ¬¬(isNativeLibrary rel = true) := fun hc => hc hn
      rw [if_neg hn2] at h
      by_cases hreg : fs.isRegularFile (pathJoin extensionDir rel) = true
      · have hcnd : ¬¬(fs.isRegularFile (pathJoin extensionDir rel) = true) := fun hc => hc hreg
        rw [if_neg hcnd] at h
        split at h
        · cases hce : copyExtra fs (pathJoin extensionDir rel)
              (resolvedRelDest fs gemDir extensionFile rel) extraDests with
          | none => rw [hce] at h; cases h
          | some ec =>
            rw [hce] at h
            cases hloop : installLoop fs gemDir extensionFile extensionDir primaryDest
                extraDests rest with
            | none => rw [hloop] at h; cases h
            | some pr =>
              obtain ⟨inst', cps'⟩ := pr
              rw [hloop] at h
              cases h
              obtain ⟨ih1, ih2⟩ := ih inst' cps' hloop
              constructor
              · intro q hq
                rcases List.mem_cons.mp hq with hq | hq
                · exact ⟨rel, List.mem_cons_self _ _, hn, hq⟩
                · obtain ⟨rel', hm, hnat, heq⟩ := ih1 q hq
                  exact ⟨rel', List.mem_cons_of_mem _ hm, hnat, heq⟩
              · intro cp hcp
                rcases List.mem_cons.mp hcp with hcp | hcp
                · exact ⟨rel, List.mem_cons_self _ _, hn, by rw [hcp]⟩
                · rcases List.mem_append.mp hcp with hcp | hcp
                  · exact ⟨rel, List.mem_cons_self _ _, hn,
                      copyExtra_src fs _ _ extraDests ec hce cp hcp⟩
                  · obtain ⟨rel', hm, hnat, heq⟩ := ih2 cp hcp
                    exact ⟨rel', List.mem_cons_of_mem _ hm, hnat, heq⟩
        · cases h
      · rw [if_pos hreg] at h
        obtain ⟨ih1, ih2⟩ := ih installed copies h
        constructor
        · intro q hq
          obtain ⟨rel', hm, hnat, heq⟩ := ih1 q hq
          exact ⟨rel', List.mem_cons_of_mem _ hm, hnat, heq⟩
        · intro cp hcp
          obtain ⟨rel', hm, hnat, heq⟩ := ih2 cp hcp
          exact ⟨rel', List.mem_cons_of_mem _ hm, hnat, heq⟩
    · simp only [installLoop] at h
      rw [if_pos hn] at h
      obtain ⟨ih1, ih2⟩ := ih installed copies h
      constructor
      · intro q hq
        obtain ⟨rel', hm, hnat, heq⟩ := ih1 q hq
        exact ⟨rel', List.mem_cons_of_mem _ hm, hnat, heq⟩
      · intro cp hcp
        obtain ⟨rel', hm, hnat, heq⟩ := ih2 cp hcp
        exact ⟨rel', List.mem_cons_of_mem _ hm, hnat, heq⟩

/-- C10: when an installation contains at least one native-library artifact
(and a primary destination exists), the non-native artifacts are silently
dropped: the outcome equals the outcome on the native-only sublist, every
copy's source is a native artifact's path, every installed entry derives from
a native artifact at the primary destination, and the concrete mixed scenario
returns only the native library's installed path. -/
theorem claim_c10 :
    (∀ (fs : FSModel) (config : BuildConfig) (extensionFile extensionDir : String)
        (built : List String),
      built.any isNativeLibrary = true →
      (installTargets config).1 ≠ "" →
      finalizeNativeExtensions fs config extensionFile extensionDir built =
        finalizeNativeExtensions fs config extensionFile extensionDir
          (built.filter isNativeLibrary)) ∧
    (∀ (fs : FSModel) (gemDir extensionFile extensionDir primaryDest : String)
        (extraDests : List String) (built installed : List String)
        (copies : List (String × String)),
      installLoop fs gemDir extensionFile extensionDir primaryDest extraDests built =
        some (installed, copies) →
      (∀ q ∈ installed, ∃ rel, rel ∈ built ∧ isNativeLibrary rel = true ∧
        q = installedEntryOf gemDir primaryDest (resolvedRelDest fs gemDir extensionFile rel)) ∧
      (∀ cp ∈ copies, ∃ rel, rel ∈ built ∧ isNativeLibrary rel = true ∧
        cp.1 = pathJoin extensionDir rel)) ∧
    finalizeNativeExtensions fsPlain cfgJson33 "ext/pkg/Makefile" "/gem/ext/pkg"
        ["artifact.txt", "ext.so"] =
      some (["lib/pkg/ext.so"], [("/gem/ext/pkg/ext.so", "/gem/lib/pkg/ext.so")]) := by
  refine ⟨?_, ?_, by decide⟩
  · intro fs config extensionFile extensionDir built hany hprim
    have hne : built ≠ [] := by intro hh; subst hh; simp at hany
    obtain ⟨rel, hmem, hrel⟩ := List.any_eq_true.mp hany
    have hfmem : rel ∈ built.filter isNativeLibrary := List.mem_filter.mpr ⟨hmem, hrel⟩
    have hfne : built.filter isNativeLibrary ≠ [] := by
      intro hh; rw [hh] at hfmem; simp at hfmem
    have hfany : (built.filter isNativeLibrary).any isNativeLibrary = true :=
      List.any_eq_true.mpr ⟨rel, hfmem, hrel⟩
    have hany2 : ¬¬(built.any isNativeLibrary = true) := fun hc => hc hany
    have hfany2 : ¬¬((built.filter isNativeLibrary).any isNativeLibrary = true) :=
      fun hc => hc hfany
    simp only [finalizeNativeExtensions]
    rw [if_neg hne, if_neg hany2, if_neg hprim, if_neg hfne, if_neg hfany2, if_neg hprim]
    exact installLoop_filter fs config.gemDir extensionFile extensionDir
      (installTargets config).1 (installTargets config).2 built
  · intro fs gemDir extensionFile extensionDir primaryDest extraDests built installed copies h
    exact installLoop_sources fs gemDir extensionFile extensionDir primaryDest extraDests
      built installed copies h

theorem claim_c10_witness :
    (["artifact.txt", "ext.so"].any isNativeLibrary = true) ∧
    ((installTargets cfgJson33).1 ≠ "") ∧
    (finalizeNativeExtensions fsPlain cfgJson33 "ext/pkg/Makefile" "/gem/ext/pkg"
        ["artifact.txt", "ext.so"] =
      finalizeNativeExtensions fsPlain cfgJson33 "ext/pkg/Makefile" "/gem/ext/pkg"
        (["artifact.txt", "ext.so"].filter isNativeLibrary)) :=
  ⟨by decide, by decide,
    claim_c10.1 fsPlain cfgJson33 "ext/pkg/Makefile" "/gem/ext/pkg"
      ["artifact.txt", "ext.so"] (by decide) (by decide)⟩

end RubyExt
